import Mathlib

/-!
Verification of the youtube-link-extractor core (`src/app.py`)

This file shallowly embeds the core logic of `src/app.py` over `List Char`
(Python strings are sequences of code points; `List Char` matches Python's
`len`/slicing semantics) and proves the frozen claims about it.

Embedded components:
* the URL regex `https?://(?:www\.)?[-a-zA-Z0-9@:%._\+~#=]{1,256}\.[a-zA-Z0-9()]{1,6}\b(?:[-a-zA-Z0-9()@:%_\+.~#?&//=]*)`
  together with `re.finditer` semantics (leftmost, non-overlapping, greedy
  with backtracking);
* `extract_links_with_text` (lines 50-88);
* the title-shortening pipeline inlined in `extract` (lines 168-197);
* `get_page_title` (lines 26-48), with the HTTP response as an oracle value;
* the per-link enrichment loop (lines 158-204), with per-link fetch outcomes
  as an oracle list and the `as_completed` completion order as an arbitrary
  permutation of the link indices.

Python's `\b` and `\w` are modelled with ASCII word characters
(`[a-zA-Z0-9_]`); `.strip()` is modelled with ASCII whitespace.
-/

/-- ASCII whitespace, modelling Python's `str.strip()` / `\s` on the inputs
considered here. -/
def isSpaceC (c : Char) : Bool :=
  c == ' ' || c == '\t' || c == '\n' || c == '\r' || c == Char.ofNat 11 || c == Char.ofNat 12

/-- The host character class `[-a-zA-Z0-9@:%._\+~#=]` of the URL regex
(line 57 of `src/app.py`). -/
def hostChar (c : Char) : Bool :=
  c == '-' || c.isAlphanum || c == '@' || c == ':' || c == '%' || c == '.' ||
    c == '_' || c == '+' || c == '~' || c == '#' || c == '='

/-- The TLD character class `[a-zA-Z0-9()]` of the URL regex. -/
def tldChar (c : Char) : Bool :=
  c.isAlphanum || c == '(' || c == ')'

/-- The trailing path/query character class `[-a-zA-Z0-9()@:%_\+.~#?&//=]` of
the URL regex. -/
def tailChar (c : Char) : Bool :=
  c == '-' || c.isAlphanum || c == '(' || c == ')' || c == '@' || c == ':' ||
    c == '%' || c == '_' || c == '+' || c == '.' || c == '~' || c == '#' ||
    c == '?' || c == '&' || c == '/' || c == '='

/-- Word character (`\w`) for the `\b` boundary in the URL regex, ASCII model. -/
def wordChar (c : Char) : Bool :=
  c.isAlphanum || c == '_'

/-- The separator/arrow class `[:\-\|\s←-↙]` stripped around
Strategy-A label text (line 68 of `src/app.py`). -/
def sepChar (c : Char) : Bool :=
  c == ':' || c == '-' || c == '|' || isSpaceC c ||
    (decide (0x2190 ≤ c.toNat) && decide (c.toNat ≤ 0x2199))

/-- Length of the longest prefix of `l` whose characters all satisfy `p`
(how many characters a greedy character-class quantifier consumes). -/
def runLen (p : Char → Bool) : List Char → Nat
  | [] => 0
  | c :: t => if p c then runLen p t + 1 else 0

/-- Boolean "u is a prefix of s" (used for literal substring tests). -/
def isPrefixB : List Char → List Char → Bool
  | [], _ => true
  | _ :: _, [] => false
  | a :: as, b :: bs => a == b && isPrefixB as bs

/-- Strip from the right end while `p` holds (Python `rstrip` direction). -/
def dropWhileEndP (p : Char → Bool) (l : List Char) : List Char :=
  (l.reverse.dropWhile p).reverse

/-- Python `str.strip()` (both ends, whitespace). -/
def pyStrip (l : List Char) : List Char :=
  dropWhileEndP isSpaceC (l.dropWhile isSpaceC)

/-- Model of `re.sub(r'^[:\-\|\s←-↙]+|[:\-\|\s←-↙]+$', '', ·)`:
the anchored alternation removes exactly the maximal separator runs at the
two ends, i.e. strips the separator class from both ends. -/
def stripSep (l : List Char) : List Char :=
  dropWhileEndP sepChar (l.dropWhile sepChar)

/-- Python `description.split('\n')`. -/
def splitLines : List Char → List (List Char)
  | [] => [[]]
  | c :: t =>
    if c = '\n' then [] :: splitLines t
    else
      match splitLines t with
      | [] => [[c]]
      | l :: ls => (c :: l) :: ls

/-- Whether the first character of the list is a word character (`false` at
end of string), for the `\b` check. -/
def nextIsWord : List Char → Bool
  | [] => false
  | d :: _ => wordChar d

/-- Backtracking search for the TLD part `[a-zA-Z0-9()]{1,6}\b` at `u`
(the text right after the dot): try TLD lengths from `j0` down to 1, taking
the first length at which a word boundary follows (greedy `{1,6}`).
Returns the TLD length. -/
def tldDown (u : List Char) : Nat → Option Nat
  | 0 => none
  | j + 1 =>
    if decide (j + 1 ≤ runLen tldChar u) &&
        (wordChar (u.getD j ' ') != nextIsWord (u.drop (j + 1))) then
      some (j + 1)
    else tldDown u j

/-- The TLD part at `u`, starting from the greedy maximum `min 6 (run length)`. -/
def tryTld (u : List Char) : Option Nat :=
  tldDown u (min 6 (runLen tldChar u))

/-- Backtracking search for `[-host]{1,256}\.[tld]{1,6}\b[tail]*` at `t`:
try host lengths `h` from `h0` down to 1; at each, require a literal `'.'`
right after the host, then the TLD search; on success consume the greedy
trailing run. Returns the total number of characters matched at `t`. -/
def hostDown (t : List Char) : Nat → Option Nat
  | 0 => none
  | h' + 1 =>
    if decide (h' + 1 ≤ runLen hostChar t) && (t.getD (h' + 1) ' ' == '.') then
      match tryTld (t.drop (h' + 2)) with
      | some j =>
        some ((h' + 1) + 1 + j + runLen tailChar ((t.drop (h' + 2)).drop j))
      | none => hostDown t h'
    else hostDown t h'

/-- Host-and-after part of the URL regex at `t`, greedy from
`min 256 (host run length)`. -/
def matchCore (t : List Char) : Option Nat :=
  hostDown t (min 256 (runLen hostChar t))

/-- Optional `(?:www\.)?` followed by the core: try consuming a literal `"www."`
first (greedy option); if the rest fails, backtrack and match the core
directly (the host class also covers `w` and `.`). -/
def matchBody (r : List Char) : Option Nat :=
  if isPrefixB "www.".data r then
    match matchCore (r.drop 4) with
    | some n => some (4 + n)
    | none => matchCore r
  else matchCore r

/-- Match of the whole URL regex anchored at the head of `s`; returns the
match length. `https?://` is the literal scheme alternatives. -/
def matchAt : List Char → Option Nat
  | 'h' :: 't' :: 't' :: 'p' :: 's' :: ':' :: '/' :: '/' :: r =>
    (matchBody r).map (fun n => 8 + n)
  | 'h' :: 't' :: 't' :: 'p' :: ':' :: '/' :: '/' :: r =>
    (matchBody r).map (fun n => 7 + n)
  | _ => none

/-- Scanner core for `re.finditer`: walk the string one character at a
time; `skip` counts characters still covered by the last emitted match
(matches are non-overlapping, scanning resumes at a match's end). At
`skip = 0`, emit the anchored match at the current suffix if any (a match
always has length ≥ 8: the scheme alone is 7-8 characters). -/
def findAllGo : List Char → Nat → List (List Char)
  | [], _ => []
  | _ :: t, skip + 1 => findAllGo t skip
  | c :: t, 0 =>
    match matchAt (c :: t) with
    | some L => (c :: t).take L :: findAllGo t (L - 1)
    | none => findAllGo t 0

/-- Model of `re.finditer` over `s`: scan left to right; at each position emit the
anchored match if any and continue after it (non-overlapping), else advance
one character. Returns the matched substrings (`match.group(0)`) in order. -/
def findAll (s : List Char) : List (List Char) :=
  findAllGo s 0

/-- Core of Python `str.replace(u, '')`: walk the string one character at
a time; `skip` counts characters of the occurrence currently being
deleted. At `skip = 0`, if `u` (non-empty) starts here, delete this
character and the `u.length - 1` after it; otherwise keep the character.
This is the leftmost non-overlapping scan `str.replace` performs. -/
def removeAllGo (u : List Char) : List Char → Nat → List Char
  | [], _ => []
  | _ :: t, skip + 1 => removeAllGo u t skip
  | c :: t, 0 =>
    if u.isEmpty = false ∧ isPrefixB u (c :: t) = true then
      removeAllGo u t (u.length - 1)
    else c :: removeAllGo u t 0

/-- Python `line.replace(url, '')`: remove all leftmost non-overlapping
occurrences of `u` from `s`, scanning left to right. -/
def removeAll (u : List Char) (s : List Char) : List Char :=
  removeAllGo u s 0

/-- Alphanumeric test `[a-zA-Z0-9]` used for `has_alnum` (line 71 of `src/app.py`). -/
def hasAlnum (l : List Char) : Bool :=
  l.any Char.isAlphanum

/-- The cleaned Strategy-A candidate text for a URL on a line
(lines 66-68 of `src/app.py`):
`text_on_line = line.replace(url, '').strip()` then
`text_on_line_cleaned = re.sub(r'^[sep]+|[sep]+$', '', text_on_line).strip()`. -/
def strategyAText (line url : List Char) : List Char :=
  pyStrip (stripSep (pyStrip (removeAll url line)))

/-- The fixed placeholder label (line 86 of `src/app.py`). -/
def linkWord : List Char := "Link".data

/-- An extracted `{'text': ..., 'url': ...}` entry. -/
structure RawLink where
  text : List Char
  url : List Char
deriving DecidableEq, Repr

/-- Label choice for one URL match (lines 62-86 of `src/app.py`):
Strategy A (cleaned same-line text, if non-empty with an alphanumeric),
else Strategy B (trimmed previous line, if it exists, has no URL match and
is non-empty; `prevOpt = none` encodes `i = 0`), else the placeholder. The
source's `found_prev` flag collapses to the nested conditional. -/
def labelFor (prevOpt : Option (List Char)) (line url : List Char) : List Char :=
  let cl := strategyAText line url
  if !cl.isEmpty && hasAlnum cl then cl
  else
    match prevOpt with
    | none => linkWord
    | some pl =>
      let prev := pyStrip pl
      if (findAll prev).isEmpty && !prev.isEmpty then prev else linkWord

/-- The per-line loop of `extract_links_with_text`, carrying the previous
line (`lines[i-1]` when `i > 0`). -/
def extractGo (prevOpt : Option (List Char)) : List (List Char) → List RawLink
  | [] => []
  | line :: rest =>
    (findAll line).map (fun url => ⟨labelFor prevOpt line url, url⟩) ++
      extractGo (some line) rest

/-- Model of `extract_links_with_text(description)` (lines 50-88 of `src/app.py`). -/
def extractLinksWithText (description : List Char) : List RawLink :=
  if description.isEmpty then [] else extractGo none (splitLines description)

/-! ## Title shortening pipeline (lines 168-197 of `src/app.py`) -/

/-- First index of an occurrence of `pat` in `s`, if any. -/
def findSub (pat : List Char) : List Char → Option Nat
  | [] => if isPrefixB pat [] then some 0 else none
  | c :: t =>
    if isPrefixB pat (c :: t) then some 0 else (findSub pat t).map (· + 1)

/-- Last index of an occurrence of `pat` in `s`, if any (for
`str.rsplit(pat, 1)` and the `pat in s` test). -/
def lastSub (pat : List Char) : List Char → Option Nat
  | [] => if isPrefixB pat [] then some 0 else none
  | c :: t =>
    match (lastSub pat t).map (· + 1) with
    | some i => some i
    | none => if isPrefixB pat (c :: t) then some 0 else none

/-- Python `full_title.split(' | ')[0]`: the text before the first `" | "`, or the
whole string if absent. -/
def pipeHead (full : List Char) : List Char :=
  match findSub " | ".data full with
  | none => full
  | some i => full.take i

/-- Model of `cleaned_title = full_title.split(' | ')[0].strip()` (line 169). -/
def cleanedTitleOf (full : List Char) : List Char :=
  pyStrip (pipeHead full)

/-- The `" - "`-splitting stage (lines 180-190): when `" - "` occurs, split
on its last occurrence and keep the trimmed first part if that part fits in
25 characters, else revert to the whole cleaned title. -/
def step3 (cleaned : List Char) : List Char :=
  match lastSub " - ".data cleaned with
  | none => cleaned
  | some i =>
    let firstPart := pyStrip (cleaned.take i)
    if firstPart.length ≤ 25 then firstPart else cleaned

/-- Model of `short_title[:25].rstrip(' :,.|-')` (line 197): hard truncation with
trailing-separator stripping. -/
def hardTruncate (s : List Char) : List Char :=
  dropWhileEndP (fun c => " :,.|-".data.contains c) (s.take 25)

/-- The fallback stage (lines 192-197): ask the black-box shortener; a
`none` (no key / API error) or empty answer falls back to hard truncation.
`gem` models `shorten_with_gemini(·, api_key)`. -/
def gemStage (gem : List Char → Option (List Char)) (cand : List Char) : List Char :=
  match gem cand with
  | some t => if t.isEmpty then hardTruncate cand else t
  | none => hardTruncate cand

/-- The whole shortening pipeline applied to `full_title`
(lines 168-197 of `src/app.py`). -/
def shortenTitle (full : List Char) (gem : List Char → Option (List Char)) : List Char :=
  let cleaned := cleanedTitleOf full
  if cleaned.length ≤ 25 then cleaned
  else
    let st := step3 cleaned
    if 25 < st.length then gemStage gem st else st

/-! ## Title fetcher (lines 26-48 of `src/app.py`) -/

/-- The outcome of `requests.get(url, ...)`: either an exception
(network error, timeout, ...) or a response with a status code and a
decoded body. -/
inductive FetchResponse where
  | exc
  | ok (status : Nat) (body : List Char)

/-- Case-insensitive Boolean prefix test (ASCII lowering), for the
`re.IGNORECASE` literal searches. -/
def ciPrefixB : List Char → List Char → Bool
  | [], _ => true
  | _ :: _, [] => false
  | a :: as, b :: bs => (a.toLower == b.toLower) && ciPrefixB as bs

/-- First index of a case-insensitive occurrence of `pat` in `s`. -/
def ciFind (pat : List Char) : List Char → Option Nat
  | [] => if ciPrefixB pat [] then some 0 else none
  | c :: t =>
    if ciPrefixB pat (c :: t) then some 0 else (ciFind pat t).map (· + 1)

/-- Model of `re.search(r'<title>(.*?)</title>', body, re.IGNORECASE | re.DOTALL)`,
group 1: content from right after the first case-insensitive `<title>` up
to the first case-insensitive `</title>` after it (lazy `.*?`, and DOTALL
lets the content span newlines). -/
def findTitleTag (body : List Char) : Option (List Char) :=
  match ciFind "<title>".data body with
  | none => none
  | some p =>
    match ciFind "</title>".data (body.drop (p + 7)) with
    | none => none
    | some q => some ((body.drop (p + 7)).take q)

/-- Model of `get_page_title` (lines 26-48): trimmed title-tag content on a 200
response, empty string on any failure; the catch-all `except` makes the
function total. -/
def getPageTitle (r : FetchResponse) : List Char :=
  match r with
  | .exc => []
  | .ok st body =>
    if st = 200 then
      match findTitleTag body with
      | some c => pyStrip c
      | none => []
    else []

/-! ## Enrichment pipeline (lines 158-204 of `src/app.py`) -/

/-- Per-link enrichment outcome: `ok t` is a normal `future.result()`
returning page title `t` (possibly empty), `exc` an unexpected exception
during the link's enrichment (the `except` branch, lines 201-204). -/
inductive FetchOutcome where
  | ok (t : List Char)
  | exc
deriving DecidableEq

/-- Model of `full_title = page_title if page_title else link['text']` (line 165). -/
def fullTitleFor (o : FetchOutcome) (l : RawLink) : List Char :=
  match o with
  | .ok t => if t.isEmpty then l.text else t
  | .exc => l.text

/-- A link after enrichment: the original dict with `page_title` and
`short_title` added. -/
structure ELink where
  text : List Char
  url : List Char
  page_title : List Char
  short_title : List Char
deriving DecidableEq, Repr

/-- Enrichment of one link (lines 162-204): normal path fetches, shortens;
exceptional path degrades to `page_title = text`, `short_title = text[:25]`. -/
def enrichOne (gem : List Char → Option (List Char)) (o : FetchOutcome) (l : RawLink) : ELink :=
  match o with
  | .ok t =>
    let full := if t.isEmpty then l.text else t
    ⟨l.text, l.url, full, shortenTitle full gem⟩
  | .exc => ⟨l.text, l.url, l.text, l.text.take 25⟩

/-- A link dict before its future completes (no `page_title`/`short_title`
keys yet; modelled as empty fields). -/
def initEnrich (l : RawLink) : ELink :=
  ⟨l.text, l.url, [], []⟩

/-- The `as_completed` loop (lines 160-204): futures complete in an
arbitrary order `order` of link indices; each completion mutates exactly
its own link dict in the original `links` list. -/
def runPipeline (gem : List Char → Option (List Char)) (outs : List FetchOutcome)
    (links : List RawLink) (order : List Nat) : List ELink :=
  order.foldl
    (fun acc i => acc.set i (enrichOne gem (outs.getD i .exc) (links.getD i ⟨[], []⟩)))
    (links.map initEnrich)

/-! ## Spec-side definitions

These follow the wording of the spec / claims (not the source), for the
refinement-style claims that compare the two. -/

/-- Predicate: `v` occurs as a contiguous substring of `s`. -/
def infixIn (v s : List Char) : Prop :=
  ∃ x y, s = x ++ v ++ y

/-- Label choice as worded in claim C3: strict priority,
Strategy A whenever its cleaned text is non-empty with an alphanumeric,
else Strategy B whenever a previous line exists, is non-empty (trimmed) and
contains no URL match, else the placeholder `"Link"`. -/
def specLabel (prevOpt : Option (List Char)) (line url : List Char) : List Char :=
  let cl := strategyAText line url
  if cl ≠ [] ∧ hasAlnum cl = true then cl
  else if prevOpt.isSome ∧ pyStrip (prevOpt.getD []) ≠ [] ∧ findAll (pyStrip (prevOpt.getD [])) = [] then
    pyStrip (prevOpt.getD [])
  else linkWord

/-- The extractor with labels chosen per claim C3's wording. -/
def specGo (prevOpt : Option (List Char)) : List (List Char) → List RawLink
  | [] => []
  | line :: rest =>
    (findAll line).map (fun url => ⟨specLabel prevOpt line url, url⟩) ++
      specGo (some line) rest

/-- Extraction with claim C3's label rule. -/
def specExtract (description : List Char) : List RawLink :=
  if description.isEmpty then [] else specGo none (splitLines description)

/-- Body of claim C9's claimed pattern, as worded there: a host of
host-class characters, then a dot-separated TLD of 1-6 ALPHANUMERIC
characters (no other characters in the TLD component), then trailing URL
characters consuming the rest of the string. -/
@[reducible]
def claimedBody (body : List Char) : Prop :=
  ∃ k < body.length, 0 < k ∧ (body.take k).all hostChar = true ∧
    body.getD k ' ' = '.' ∧
    ∃ j < 7, 0 < j ∧ j ≤ (body.drop (k + 1)).length ∧
      ((body.drop (k + 1)).take j).all Char.isAlphanum = true ∧
      ((body.drop (k + 1)).drop j).all tailChar = true

/-- Full-string match of claim C9's claimed pattern. -/
@[reducible]
def claimedUrlShape (u : List Char) : Prop :=
  (isPrefixB "http://".data u = true ∧ claimedBody (u.drop 7)) ∨
    (isPrefixB "https://".data u = true ∧ claimedBody (u.drop 8))

/-! ## Supporting lemmas: lengths and truncation -/

theorem length_dropWhileEndP_le (p : Char → Bool) (l : List Char) :
    (dropWhileEndP p l).length ≤ l.length := by
  rw [dropWhileEndP]
  calc (l.reverse.dropWhile p).reverse.length
      = (l.reverse.dropWhile p).length := List.length_reverse _
    _ ≤ l.reverse.length := (List.dropWhile_sublist _).length_le
    _ = l.length := List.length_reverse _

theorem hardTruncate_length_le (s : List Char) : (hardTruncate s).length ≤ 25 := by
  rw [hardTruncate]
  calc (dropWhileEndP (fun c => " :,.|-".data.contains c) (s.take 25)).length
      ≤ (s.take 25).length := length_dropWhileEndP_le _ _
    _ ≤ 25 := by simp [List.length_take]

theorem step3_eq_or_le (c : List Char) : step3 c = c ∨ (step3 c).length ≤ 25 := by
  rw [step3]
  cases h : lastSub " - ".data c with
  | none => exact Or.inl rfl
  | some i =>
    by_cases hf : (pyStrip (c.take i)).length ≤ 25
    · right; simpa [hf] using hf
    · left; simp [hf]

/-! ## Claim theorems -/

/-- C1 (counterexample). `"Pink Burn Drink - GymBeam"` has exactly 25
characters, so the shortening pipeline returns it unchanged via the
`len <= 25` early exit; the claimed output `"Pink Burn Drink"` is wrong and
step 3 is never reached. -/
theorem c1_counterexample :
    shortenTitle "Pink Burn Drink - GymBeam".data (fun _ => none) =
      "Pink Burn Drink - GymBeam".data ∧
    "Pink Burn Drink - GymBeam".data ≠ "Pink Burn Drink".data := by
  decide

/-- C1 (amended). TitleShortener applied to `"Pink Burn Drink - GymBeam"`
returns the input unchanged, for any fallback function: the cleaned title
has length exactly 25 ≤ 25, so step 2 stops the pipeline. -/
theorem c1_amended (gem : List Char → Option (List Char)) :
    shortenTitle "Pink Burn Drink - GymBeam".data gem =
      "Pink Burn Drink - GymBeam".data := by
  have h : cleanedTitleOf "Pink Burn Drink - GymBeam".data =
      "Pink Burn Drink - GymBeam".data := by decide
  rw [shortenTitle]
  simp only [h]
  rw [if_pos (by decide)]

/-- C2. The `short_title` produced by per-link enrichment has length ≤ 25,
except when the black-box fallback is the last applied step and returned a
non-empty string (that string is then used as-is, with no length
re-check); the degraded exception path (`text[:25]`) also satisfies the
bound. -/
theorem c2_short_title_bound (gem : List Char → Option (List Char))
    (o : FetchOutcome) (l : RawLink) :
    (enrichOne gem o l).short_title.length ≤ 25 ∨
      ∃ t, gem (step3 (cleanedTitleOf (fullTitleFor o l))) = some t ∧ t ≠ [] ∧
        (enrichOne gem o l).short_title = t := by
  cases o with
  | exc =>
    left
    simp [enrichOne, List.length_take]
  | ok t =>
    simp only [enrichOne, fullTitleFor]
    rw [shortenTitle]
    by_cases h1 : (cleanedTitleOf (if t.isEmpty then l.text else t)).length ≤ 25
    · rw [if_pos h1]
      exact Or.inl h1
    · rw [if_neg h1]
      by_cases h2 : 25 < (step3 (cleanedTitleOf (if t.isEmpty then l.text else t))).length
      · rw [if_pos h2]
        cases hg : gem (step3 (cleanedTitleOf (if t.isEmpty then l.text else t))) with
        | none =>
          refine Or.inl ?_
          unfold gemStage
          rw [hg]
          exact hardTruncate_length_le _
        | some t' =>
          cases t' with
          | nil =>
            refine Or.inl ?_
            unfold gemStage
            rw [hg]
            exact hardTruncate_length_le _
          | cons a as =>
            refine Or.inr ⟨a :: as, rfl, by simp, ?_⟩
            unfold gemStage
            rw [hg]
            exact if_neg (by simp)
      · rw [if_neg h2]
        exact Or.inl (by omega)

/-- C6. When the cleaned title is longer than 25 characters, contains
`" - "`, and the trimmed part before the last `" - "` is still longer than
25 characters, the pipeline does not use that first part: step 3 returns
the full cleaned title, and that full cleaned title is the candidate passed
to the fallback/truncation stage. -/
theorem c6_prefix_too_long (full : List Char) (gem : List Char → Option (List Char))
    (i : Nat)
    (h25 : 25 < (cleanedTitleOf full).length)
    (hocc : lastSub " - ".data (cleanedTitleOf full) = some i)
    (hlong : 25 < (pyStrip ((cleanedTitleOf full).take i)).length) :
    step3 (cleanedTitleOf full) = cleanedTitleOf full ∧
      shortenTitle full gem = gemStage gem (cleanedTitleOf full) := by
  have hstep : step3 (cleanedTitleOf full) = cleanedTitleOf full := by
    rw [step3, hocc]
    simp only []
    rw [if_neg (by omega)]
  refine ⟨hstep, ?_⟩
  rw [shortenTitle]
  rw [if_neg (by omega), hstep, if_pos h25]

/-- C6 witness at a concrete input: 30 `A`s, then `" - B"`. -/
theorem c6_witness :
    (25 < (cleanedTitleOf "AAAAAAAAAAAAAAAAAAAAAAAAAAAAAA - B".data).length) ∧
    lastSub " - ".data (cleanedTitleOf "AAAAAAAAAAAAAAAAAAAAAAAAAAAAAA - B".data) = some 30 ∧
    (25 < (pyStrip ((cleanedTitleOf "AAAAAAAAAAAAAAAAAAAAAAAAAAAAAA - B".data).take 30)).length) ∧
    (step3 (cleanedTitleOf "AAAAAAAAAAAAAAAAAAAAAAAAAAAAAA - B".data) =
        cleanedTitleOf "AAAAAAAAAAAAAAAAAAAAAAAAAAAAAA - B".data ∧
      shortenTitle "AAAAAAAAAAAAAAAAAAAAAAAAAAAAAA - B".data (fun _ => none) =
        gemStage (fun _ => none) (cleanedTitleOf "AAAAAAAAAAAAAAAAAAAAAAAAAAAAAA - B".data)) :=
  ⟨by decide, by decide, by decide,
    c6_prefix_too_long "AAAAAAAAAAAAAAAAAAAAAAAAAAAAAA - B".data (fun _ => none) 30
      (by decide) (by decide) (by decide)⟩

/-- C7. For every candidate (the step-3 result) longer than 25 characters,
when the fallback returns nothing (`none`: absent or failed) or an empty
string, the final short title is the first 25 characters of the candidate
with trailing `' '`, `':'`, `','`, `'.'`, `'|'`, `'-'` stripped from the
right end. -/
theorem c7_hard_truncation (full : List Char) (gem : List Char → Option (List Char))
    (h : 25 < (step3 (cleanedTitleOf full)).length)
    (hg : gem (step3 (cleanedTitleOf full)) = none ∨
          gem (step3 (cleanedTitleOf full)) = some []) :
    shortenTitle full gem =
      dropWhileEndP (fun c => " :,.|-".data.contains c)
        ((step3 (cleanedTitleOf full)).take 25) := by
  have h25 : 25 < (cleanedTitleOf full).length := by
    rcases step3_eq_or_le (cleanedTitleOf full) with he | hle
    · rwa [he] at h
    · omega
  rw [shortenTitle]
  rw [if_neg (by omega), if_pos h, gemStage]
  rcases hg with hg | hg <;> rw [hg] <;> rfl

/-- C7 witness at a concrete separator-free long title. -/
theorem c7_witness :
    (25 < (step3 (cleanedTitleOf "A Very Extremely Long Product Title That Has No Separators At All".data)).length) ∧
    shortenTitle "A Very Extremely Long Product Title That Has No Separators At All".data (fun _ => none) =
      dropWhileEndP (fun c => " :,.|-".data.contains c)
        ((step3 (cleanedTitleOf "A Very Extremely Long Product Title That Has No Separators At All".data)).take 25) :=
  ⟨by decide,
    c7_hard_truncation "A Very Extremely Long Product Title That Has No Separators At All".data
      (fun _ => none) (by decide) (Or.inl rfl)⟩

/-! ## Supporting lemmas: case-insensitive search -/

theorem ciFind_some (pat : List Char) :
    ∀ (s : List Char) (i : Nat), ciFind pat s = some i →
      ciPrefixB pat (s.drop i) = true ∧ ∀ j < i, ciPrefixB pat (s.drop j) = false := by
  intro s
  induction s with
  | nil =>
    intro i h
    rw [ciFind] at h
    by_cases hp : ciPrefixB pat [] = true
    · rw [if_pos hp] at h
      cases h
      exact ⟨hp, by omega⟩
    · rw [if_neg hp] at h
      cases h
  | cons a t ih =>
    intro i h
    rw [ciFind] at h
    by_cases hp : ciPrefixB pat (a :: t) = true
    · rw [if_pos hp] at h
      cases h
      exact ⟨hp, by omega⟩
    · rw [if_neg hp] at h
      rcases Option.map_eq_some'.mp h with ⟨i', hi', rfl⟩
      obtain ⟨g1, g2⟩ := ih i' hi'
      refine ⟨g1, ?_⟩
      intro j hj
      cases j with
      | zero => simpa using hp
      | succ j' =>
        have : j' < i' := by omega
        simpa using g2 j' this

/-- C8. `get_page_title` never propagates an error: it returns the empty
string on an exception, on a non-200 status and on a missing title tag,
and otherwise returns the trimmed content of the first case-insensitive
`<title>...</title>` tag: the content runs from the earliest
case-insensitive occurrence of `<title>` up to the earliest
case-insensitive `</title>` after it (which may span newlines). -/
theorem c8_title_fetcher (st : Nat) (body c : List Char) :
    getPageTitle FetchResponse.exc = [] ∧
    (st ≠ 200 → getPageTitle (.ok st body) = []) ∧
    (findTitleTag body = none → getPageTitle (.ok 200 body) = []) ∧
    (findTitleTag body = some c →
      getPageTitle (.ok 200 body) = pyStrip c ∧
      ∃ p q, ciPrefixB "<title>".data (body.drop p) = true ∧
        (∀ p' < p, ciPrefixB "<title>".data (body.drop p') = false) ∧
        ciPrefixB "</title>".data ((body.drop (p + 7)).drop q) = true ∧
        (∀ q' < q, ciPrefixB "</title>".data ((body.drop (p + 7)).drop q') = false) ∧
        c = (body.drop (p + 7)).take q) := by
  refine ⟨rfl, ?_, ?_, ?_⟩
  · intro h
    simp [getPageTitle, h]
  · intro h
    simp [getPageTitle, h]
  · intro h
    refine ⟨by simp [getPageTitle, h], ?_⟩
    rw [findTitleTag] at h
    split at h
    · exact absurd h (by simp)
    · rename_i p hp
      split at h
      · exact absurd h (by simp)
      · rename_i q hq
        obtain ⟨h1, h2⟩ := ciFind_some _ _ _ hp
        obtain ⟨h3, h4⟩ := ciFind_some _ _ _ hq
        exact ⟨p, q, h1, h2, h3, h4, by simpa using h.symm⟩

/-- C8 witness: a 404 response yields `""`; a 200 response with a
mixed-case, newline-spanning title yields the trimmed first tag content. -/
theorem c8_witness :
    (getPageTitle (.ok 404 "<p><TITLE>\n Hi there \n</title><title>x</title>".data) = []) ∧
    (getPageTitle (.ok 200 "<p><TITLE>\n Hi there \n</title><title>x</title>".data) =
        pyStrip "\n Hi there \n".data ∧
      ∃ p q, ciPrefixB "<title>".data ("<p><TITLE>\n Hi there \n</title><title>x</title>".data.drop p) = true ∧
        (∀ p' < p, ciPrefixB "<title>".data ("<p><TITLE>\n Hi there \n</title><title>x</title>".data.drop p') = false) ∧
        ciPrefixB "</title>".data (("<p><TITLE>\n Hi there \n</title><title>x</title>".data.drop (p + 7)).drop q) = true ∧
        (∀ q' < q, ciPrefixB "</title>".data (("<p><TITLE>\n Hi there \n</title><title>x</title>".data.drop (p + 7)).drop q') = false) ∧
        "\n Hi there \n".data = ("<p><TITLE>\n Hi there \n</title><title>x</title>".data.drop (p + 7)).take q) :=
  ⟨(c8_title_fetcher 404 "<p><TITLE>\n Hi there \n</title><title>x</title>".data "\n Hi there \n".data).2.1 (by decide),
    (c8_title_fetcher 404 "<p><TITLE>\n Hi there \n</title><title>x</title>".data "\n Hi there \n".data).2.2.2 (by decide)⟩

/-! ## Supporting lemmas: the fan-out/fan-in loop -/

theorem foldl_set_length (f : Nat → ELink) :
    ∀ (order : List Nat) (init : List ELink),
      (order.foldl (fun acc i => acc.set i (f i)) init).length = init.length := by
  intro order
  induction order with
  | nil => intro init; rfl
  | cons j rest ih =>
    intro init
    rw [List.foldl_cons, ih, List.length_set]

theorem foldl_set_not_mem (f : Nat → ELink) :
    ∀ (order : List Nat) (init : List ELink) (i : Nat), i ∉ order →
      (order.foldl (fun acc i => acc.set i (f i)) init)[i]? = init[i]? := by
  intro order
  induction order with
  | nil => intro init i _; rfl
  | cons j rest ih =>
    intro init i hi
    have hne : j ≠ i := fun he => hi (he ▸ List.mem_cons_self j rest)
    have hrest : i ∉ rest := fun hm => hi (List.mem_cons_of_mem j hm)
    rw [List.foldl_cons, ih _ _ hrest, List.getElem?_set_ne hne]

theorem foldl_set_mem (f : Nat → ELink) :
    ∀ (order : List Nat) (init : List ELink) (i : Nat), i ∈ order → order.Nodup →
      i < init.length →
      (order.foldl (fun acc i => acc.set i (f i)) init)[i]? = some (f i) := by
  intro order
  induction order with
  | nil => intro init i hi _ _; simp at hi
  | cons j rest ih =>
    intro init i hi hnd hlen
    rw [List.foldl_cons]
    rcases List.mem_cons.mp hi with rfl | hmem
    · have hnotin : i ∉ rest := (List.nodup_cons.mp hnd).1
      rw [foldl_set_not_mem f rest _ i hnotin, List.getElem?_set_self hlen]
    · exact ih _ i hmem (List.nodup_cons.mp hnd).2 (by rwa [List.length_set])

theorem getElem?_zipWith_of_lt (gem : List Char → Option (List Char)) :
    ∀ (outs : List FetchOutcome) (links : List RawLink) (i : Nat),
      i < outs.length → i < links.length →
      (List.zipWith (enrichOne gem) outs links)[i]? =
        some (enrichOne gem (outs.getD i .exc) (links.getD i ⟨[], []⟩)) := by
  intro outs
  induction outs with
  | nil => intro links i h _; simp at h
  | cons o os ih =>
    intro links i h1 h2
    cases links with
    | nil => simp at h2
    | cons l ls =>
      cases i with
      | zero => simp [List.zipWith_cons_cons, List.getD_cons_zero]
      | succ i' =>
        have e1 : i' < os.length := by simpa using h1
        have e2 : i' < ls.length := by simpa using h2
        simpa [List.zipWith_cons_cons, List.getD_cons_succ] using ih ls i' e1 e2

/-- The completion order does not matter: when each index is processed
exactly once, the `as_completed` loop produces the in-order `zipWith` of
per-link enrichment, regardless of the permutation. -/
theorem runPipeline_eq_zipWith (gem : List Char → Option (List Char))
    (outs : List FetchOutcome) (links : List RawLink) (order : List Nat)
    (hlen : outs.length = links.length)
    (hperm : order.Perm (List.range links.length)) :
    runPipeline gem outs links order = List.zipWith (enrichOne gem) outs links := by
  have hnd : order.Nodup := (hperm.nodup_iff).mpr (List.nodup_range _)
  have hmem : ∀ i, i ∈ order ↔ i < links.length := by
    intro i
    rw [hperm.mem_iff, List.mem_range]
  rw [List.ext_get?_iff]
  intro n
  rw [List.get?_eq_getElem?, List.get?_eq_getElem?]
  by_cases hn : n < links.length
  · rw [runPipeline, foldl_set_mem _ order _ n ((hmem n).mpr hn) hnd
      (by rw [List.length_map]; exact hn)]
    rw [getElem?_zipWith_of_lt gem outs links n (by omega) hn]
  · have hL : (runPipeline gem outs links order).length = links.length := by
      rw [runPipeline, foldl_set_length, List.length_map]
    rw [List.getElem?_eq_none (by omega),
      List.getElem?_eq_none (by rw [List.length_zipWith]; omega)]

/-- C4. With N extracted links, when exactly one link's enrichment raises
(outcome `exc` at index `k`) and every other outcome is a normal fetch,
the pipeline output has length N, the failed link degrades to
`page_title = label` and `short_title = label[:25]`, every other link is
enriched normally, and the output is the index-aligned `zipWith` of the
inputs — i.e. output order equals input order for every completion order. -/
theorem c4_error_isolation (gem : List Char → Option (List Char))
    (outs : List FetchOutcome) (links : List RawLink) (order : List Nat) (k : Nat)
    (hlen : outs.length = links.length)
    (hperm : order.Perm (List.range links.length))
    (hk : outs[k]? = some FetchOutcome.exc)
    (honly : ∀ i, i ≠ k → ∀ o, outs[i]? = some o → o ≠ FetchOutcome.exc) :
    (runPipeline gem outs links order).length = links.length ∧
    (∀ l : RawLink, links[k]? = some l →
      (runPipeline gem outs links order)[k]? =
        some ⟨l.text, l.url, l.text, l.text.take 25⟩) ∧
    (∀ (i : Nat) (t : List Char) (l : RawLink),
      outs[i]? = some (FetchOutcome.ok t) → links[i]? = some l →
      (runPipeline gem outs links order)[i]? = some (enrichOne gem (.ok t) l)) ∧
    runPipeline gem outs links order = List.zipWith (enrichOne gem) outs links := by
  have hz := runPipeline_eq_zipWith gem outs links order hlen hperm
  refine ⟨?_, ?_, ?_, hz⟩
  · rw [hz, List.length_zipWith]
    omega
  · intro l hl
    obtain ⟨hkl, hlv⟩ := List.getElem?_eq_some_iff.mp hl
    rw [hz, getElem?_zipWith_of_lt gem outs links k (by omega) hkl]
    have h1 : outs.getD k .exc = .exc := by
      rw [List.getD_eq_getElem?_getD, hk]
      rfl
    have h2 : links.getD k ⟨[], []⟩ = l := by
      rw [List.getD_eq_getElem?_getD, hl]
      rfl
    rw [h1, h2]
    rfl
  · intro i t l ho hl
    obtain ⟨hil, hlv⟩ := List.getElem?_eq_some_iff.mp hl
    rw [hz, getElem?_zipWith_of_lt gem outs links i (by omega) hil]
    have h1 : outs.getD i .exc = .ok t := by
      rw [List.getD_eq_getElem?_getD, ho]
      rfl
    have h2 : links.getD i ⟨[], []⟩ = l := by
      rw [List.getD_eq_getElem?_getD, hl]
      rfl
    rw [h1, h2]

/-- C4 witness: three links, the middle fetch raises, and the futures
complete in the order 2, 0, 1. -/
theorem c4_witness :
    (runPipeline (fun _ => none)
        [FetchOutcome.ok "Great Product - Shop".data, FetchOutcome.exc,
          FetchOutcome.ok []]
        [⟨"one".data, "http://a.de".data⟩, ⟨"two two two two two two two two".data, "http://b.fg".data⟩,
          ⟨"three".data, "http://c.hi".data⟩]
        [2, 0, 1]).length = 3 ∧
    (runPipeline (fun _ => none)
        [FetchOutcome.ok "Great Product - Shop".data, FetchOutcome.exc,
          FetchOutcome.ok []]
        [⟨"one".data, "http://a.de".data⟩, ⟨"two two two two two two two two".data, "http://b.fg".data⟩,
          ⟨"three".data, "http://c.hi".data⟩]
        [2, 0, 1])[1]? =
      some ⟨"two two two two two two two two".data, "http://b.fg".data,
        "two two two two two two two two".data, "two two two two two two t".data⟩ ∧
    runPipeline (fun _ => none)
        [FetchOutcome.ok "Great Product - Shop".data, FetchOutcome.exc,
          FetchOutcome.ok []]
        [⟨"one".data, "http://a.de".data⟩, ⟨"two two two two two two two two".data, "http://b.fg".data⟩,
          ⟨"three".data, "http://c.hi".data⟩]
        [2, 0, 1] =
      List.zipWith (enrichOne (fun _ => none))
        [FetchOutcome.ok "Great Product - Shop".data, FetchOutcome.exc,
          FetchOutcome.ok []]
        [⟨"one".data, "http://a.de".data⟩, ⟨"two two two two two two two two".data, "http://b.fg".data⟩,
          ⟨"three".data, "http://c.hi".data⟩] := by
  have h := c4_error_isolation (fun _ => none)
    [FetchOutcome.ok "Great Product - Shop".data, FetchOutcome.exc, FetchOutcome.ok []]
    [⟨"one".data, "http://a.de".data⟩, ⟨"two two two two two two two two".data, "http://b.fg".data⟩,
      ⟨"three".data, "http://c.hi".data⟩]
    [2, 0, 1] 1 (by decide) (by decide) (by decide)
    (by
      intro i hi o ho
      rcases List.getElem?_eq_some_iff.mp ho with ⟨hlt, hv⟩
      simp only [List.length_cons, List.length_nil] at hlt
      interval_cases i
      · simp_all
        rw [← hv]
        simp
      · exact absurd rfl hi
      · simp_all
        rw [← hv]
        simp)
  exact ⟨h.1, h.2.1 ⟨"two two two two two two two two".data, "http://b.fg".data⟩ (by decide),
    h.2.2.2⟩

/-! ## Supporting lemmas: URL matcher soundness -/

theorem runLen_le_length (p : Char → Bool) : ∀ l : List Char, runLen p l ≤ l.length := by
  intro l
  induction l with
  | nil => simp [runLen]
  | cons c t ih =>
    rw [runLen]
    by_cases h : p c = true
    · rw [if_pos h]
      simpa using ih
    · rw [if_neg h]
      simp

theorem all_take_of_le_runLen (p : Char → Bool) :
    ∀ (l : List Char) (k : Nat), k ≤ runLen p l → (l.take k).all p = true := by
  intro l
  induction l with
  | nil => intro k _; simp
  | cons c t ih =>
    intro k hk
    cases k with
    | zero => simp
    | succ k' =>
      rw [runLen] at hk
      by_cases h : p c = true
      · rw [if_pos h] at hk
        simp only [List.take_succ_cons, List.all_cons, h, Bool.true_and]
        exact ih k' (by omega)
      · rw [if_neg h] at hk
        omega

theorem tldDown_sound (u : List Char) :
    ∀ j0 j, j0 ≤ 6 → tldDown u j0 = some j →
      1 ≤ j ∧ j ≤ 6 ∧ j ≤ runLen tldChar u := by
  intro j0
  induction j0 with
  | zero => intro j _ h; simp [tldDown] at h
  | succ m ih =>
    intro j h6 h
    rw [tldDown] at h
    by_cases hc : (decide (m + 1 ≤ runLen tldChar u) &&
        (wordChar (u.getD m ' ') != nextIsWord (u.drop (m + 1)))) = true
    · rw [if_pos hc] at h
      cases h
      simp only [Bool.and_eq_true, decide_eq_true_eq] at hc
      exact ⟨by omega, h6, hc.1⟩
    · rw [if_neg hc] at h
      exact ih j (by omega) h

theorem hostDown_sound (t : List Char) :
    ∀ k0 n, hostDown t k0 = some n →
      ∃ k j, 1 ≤ k ∧ k ≤ runLen hostChar t ∧ t.getD k ' ' = '.' ∧
        1 ≤ j ∧ j ≤ 6 ∧ j ≤ runLen tldChar (t.drop (k + 1)) ∧
        n = k + 1 + j + runLen tailChar ((t.drop (k + 1)).drop j) := by
  intro k0
  induction k0 with
  | zero => intro n h; simp [hostDown] at h
  | succ h' ih =>
    intro n h
    rw [hostDown] at h
    by_cases hc : (decide (h' + 1 ≤ runLen hostChar t) && (t.getD (h' + 1) ' ' == '.')) = true
    · rw [if_pos hc] at h
      simp only [Bool.and_eq_true, decide_eq_true_eq, beq_iff_eq] at hc
      cases htl : tryTld (t.drop (h' + 2)) with
      | none =>
        rw [htl] at h
        exact ih n h
      | some j =>
        rw [htl] at h
        cases h
        obtain ⟨j1, j6, jr⟩ := tldDown_sound _ _ j (Nat.min_le_left _ _) htl
        refine ⟨h' + 1, j, by omega, hc.1, hc.2, j1, j6, ?_, ?_⟩
        · have : h' + 1 + 1 = h' + 2 := rfl
          rw [this]
          exact jr
        · have : h' + 1 + 1 = h' + 2 := rfl
          rw [this]
    · rw [if_neg hc] at h
      exact ih n h

theorem getD_dot_lt_length (t : List Char) (k : Nat) (h : t.getD k ' ' = '.') :
    k < t.length := by
  by_contra hk
  push_neg at hk
  rw [List.getD_eq_getElem?_getD, List.getElem?_eq_none hk] at h
  simp at h

theorem matchCore_decomp (t : List Char) (n : Nat) (h : matchCore t = some n) :
    ∃ host tld rest, t.take n = host ++ '.' :: (tld ++ rest) ∧
      host ≠ [] ∧ host.all hostChar = true ∧
      tld ≠ [] ∧ tld.length ≤ 6 ∧ tld.all tldChar = true ∧
      rest.all tailChar = true := by
  obtain ⟨k, j, k1, kr, kdot, j1, j6, jr, hn⟩ := hostDown_sound t _ n h
  have hklen : k < t.length := getD_dot_lt_length t k kdot
  have hdrop : t.drop k = '.' :: t.drop (k + 1) := by
    have := @List.drop_eq_getElem_cons Char k t hklen
    rw [this]
    congr 1
    rw [List.getD_eq_getElem?_getD, List.getElem?_eq_getElem hklen] at kdot
    simpa using kdot
  refine ⟨t.take k, (t.drop (k + 1)).take j,
    ((t.drop (k + 1)).drop j).take (runLen tailChar ((t.drop (k + 1)).drop j)), ?_, ?_, ?_, ?_, ?_, ?_, ?_⟩
  · rw [hn]
    have e1 : k + 1 + j + runLen tailChar ((t.drop (k + 1)).drop j) =
        k + ((j + runLen tailChar ((t.drop (k + 1)).drop j)) + 1) := by omega
    rw [e1, List.take_add, hdrop, List.take_succ_cons, List.take_add]
  · have : (t.take k).length = k := by
      rw [List.length_take]
      omega
    intro hnil
    rw [hnil] at this
    simp at this
    omega
  · exact all_take_of_le_runLen hostChar t k kr
  · have hle : j ≤ (t.drop (k + 1)).length :=
      le_trans jr (runLen_le_length tldChar _)
    have : ((t.drop (k + 1)).take j).length = j := by
      rw [List.length_take]
      omega
    intro hnil
    rw [hnil] at this
    simp at this
    omega
  · have h1 : ((t.drop (k + 1)).take j).length ≤ j := by
      rw [List.length_take]
      omega
    omega
  · exact all_take_of_le_runLen tldChar _ j jr
  · exact all_take_of_le_runLen tailChar _ _ (le_refl _)

theorem isPrefixB_take (u : List Char) :
    ∀ s : List Char, isPrefixB u s = true → s.take u.length = u := by
  induction u with
  | nil => intro s _; simp
  | cons a as ih =>
    intro s h
    cases s with
    | nil => simp [isPrefixB] at h
    | cons b bs =>
      rw [isPrefixB, Bool.and_eq_true, beq_iff_eq] at h
      obtain ⟨rfl, h2⟩ := h
      simp only [List.length_cons, List.take_succ_cons]
      rw [ih bs h2]

theorem matchBody_decomp (r : List Char) (m : Nat) (h : matchBody r = some m) :
    ∃ host tld rest, r.take m = host ++ '.' :: (tld ++ rest) ∧
      host ≠ [] ∧ host.all hostChar = true ∧
      tld ≠ [] ∧ tld.length ≤ 6 ∧ tld.all tldChar = true ∧
      rest.all tailChar = true := by
  rw [matchBody] at h
  by_cases hw : isPrefixB "www.".data r = true
  · rw [if_pos hw] at h
    cases hc : matchCore (r.drop 4) with
    | none =>
      rw [hc] at h
      exact matchCore_decomp r m h
    | some n =>
      rw [hc] at h
      cases h
      obtain ⟨host, tld, rest, heq, hne, hall, tne, t6, tall, rall⟩ :=
        matchCore_decomp (r.drop 4) n hc
      have hr : r.take (4 + n) = "www.".data ++ (r.drop 4).take n := by
        have hsplit : "www.".data ++ r.drop 4 = r := by
          have h2 : r.take 4 = "www.".data := isPrefixB_take _ r hw
          rw [← h2]
          exact List.take_append_drop 4 r
        have hta := @List.take_append Char "www.".data (r.drop 4) n
        have hlen : ("www.".data).length = 4 := by decide
        rw [hlen, hsplit] at hta
        exact hta
      refine ⟨"www.".data ++ host, tld, rest, ?_, by simp, ?_, tne, t6, tall, rall⟩
      · rw [hr, heq, List.append_assoc]
      · rw [List.all_append]
        refine Bool.and_eq_true_iff.mpr ⟨by decide, hall⟩
  · rw [if_neg hw] at h
    exact matchCore_decomp r m h

theorem matchAt_decomp (s : List Char) (L : Nat) (h : matchAt s = some L) :
    ∃ pre host tld rest, s.take L = pre ++ (host ++ '.' :: (tld ++ rest)) ∧
      (pre = "http://".data ∨ pre = "https://".data) ∧
      host ≠ [] ∧ host.all hostChar = true ∧
      tld ≠ [] ∧ tld.length ≤ 6 ∧ tld.all tldChar = true ∧
      rest.all tailChar = true := by
  unfold matchAt at h
  split at h
  · rename_i r
    rcases Option.map_eq_some'.mp h with ⟨n, hn, rfl⟩
    obtain ⟨host, tld, rest, heq, props⟩ := matchBody_decomp r n hn
    refine ⟨"https://".data, host, tld, rest, ?_, Or.inr rfl, props.1, props.2.1,
      props.2.2.1, props.2.2.2.1, props.2.2.2.2.1, props.2.2.2.2.2⟩
    have e : (8 : Nat) + n = n + 8 := by omega
    rw [e]
    show List.take (n + 8) ('h' :: 't' :: 't' :: 'p' :: 's' :: ':' :: '/' :: '/' :: r) = _
    have e8 : n + 8 = n + 8 := rfl
    simp only [show n + 8 = (n + 7) + 1 from rfl, List.take_succ_cons,
      show n + 7 = (n + 6) + 1 from rfl, show n + 6 = (n + 5) + 1 from rfl,
      show n + 5 = (n + 4) + 1 from rfl, show n + 4 = (n + 3) + 1 from rfl,
      show n + 3 = (n + 2) + 1 from rfl, show n + 2 = (n + 1) + 1 from rfl,
      show n + 1 = n + 1 from rfl]
    rw [heq]
    rfl
  · rename_i r
    rcases Option.map_eq_some'.mp h with ⟨n, hn, rfl⟩
    obtain ⟨host, tld, rest, heq, props⟩ := matchBody_decomp r n hn
    refine ⟨"http://".data, host, tld, rest, ?_, Or.inl rfl, props.1, props.2.1,
      props.2.2.1, props.2.2.2.1, props.2.2.2.2.1, props.2.2.2.2.2⟩
    have e : (7 : Nat) + n = n + 7 := by omega
    rw [e]
    show List.take (n + 7) ('h' :: 't' :: 't' :: 'p' :: ':' :: '/' :: '/' :: r) = _
    simp only [show n + 7 = (n + 6) + 1 from rfl, List.take_succ_cons,
      show n + 6 = (n + 5) + 1 from rfl, show n + 5 = (n + 4) + 1 from rfl,
      show n + 4 = (n + 3) + 1 from rfl, show n + 3 = (n + 2) + 1 from rfl,
      show n + 2 = (n + 1) + 1 from rfl]
    rw [heq]
    rfl
  · exact absurd h (by simp)

theorem findAllGo_shape :
    ∀ (s : List Char) (skip : Nat), ∀ e ∈ findAllGo s skip,
      ∃ i L, matchAt (s.drop i) = some L ∧ e = (s.drop i).take L := by
  intro s
  induction s with
  | nil =>
    intro skip e he
    simp [findAllGo] at he
  | cons c t ih =>
    intro skip e he
    cases skip with
    | succ j =>
      rw [findAllGo] at he
      obtain ⟨i, L, hm, hv⟩ := ih j e he
      refine ⟨i + 1, L, ?_, ?_⟩
      · rwa [List.drop_succ_cons]
      · rwa [List.drop_succ_cons]
    | zero =>
      rw [findAllGo] at he
      cases hma : matchAt (c :: t) with
      | some L =>
        rw [hma] at he
        rcases List.mem_cons.mp he with rfl | hmem
        · exact ⟨0, L, by simpa using hma, by simp⟩
        · obtain ⟨i, L', hm, hv⟩ := ih (L - 1) e hmem
          refine ⟨i + 1, L', ?_, ?_⟩
          · rwa [List.drop_succ_cons]
          · rwa [List.drop_succ_cons]
      | none =>
        rw [hma] at he
        obtain ⟨i, L', hm, hv⟩ := ih 0 e he
        refine ⟨i + 1, L', ?_, ?_⟩
        · rwa [List.drop_succ_cons]
        · rwa [List.drop_succ_cons]

theorem findAll_shape :
    ∀ (s : List Char), ∀ e ∈ findAll s,
      ∃ i L, matchAt (s.drop i) = some L ∧ e = (s.drop i).take L := by
  intro s e he
  exact findAllGo_shape s 0 e he

theorem extractGo_mem :
    ∀ (lines : List (List Char)) (prevOpt : Option (List Char)) (e : RawLink),
      e ∈ extractGo prevOpt lines →
      ∃ p line, line ∈ lines ∧ e.url ∈ findAll line ∧
        e = ⟨labelFor p line e.url, e.url⟩ := by
  intro lines
  induction lines with
  | nil =>
    intro p e he
    simp [extractGo] at he
  | cons line rest ih =>
    intro prevOpt e he
    rw [extractGo] at he
    rcases List.mem_append.mp he with hm | hm
    · rcases List.mem_map.mp hm with ⟨url, hu, rfl⟩
      exact ⟨prevOpt, line, List.mem_cons_self _ _, by simpa using hu, rfl⟩
    · obtain ⟨p, line', h1, h2, h3⟩ := ih (some line) e hm
      exact ⟨p, line', List.mem_cons_of_mem _ h1, h2, h3⟩

theorem splitLines_no_newline :
    ∀ (s : List Char), ∀ l ∈ splitLines s, '\n' ∉ l := by
  intro s
  induction s with
  | nil =>
    intro l hl
    rw [splitLines] at hl
    simp at hl
    subst hl
    simp
  | cons c t ih =>
    intro l hl
    rw [splitLines] at hl
    by_cases hc : c = '\n'
    · rw [if_pos hc] at hl
      rcases List.mem_cons.mp hl with rfl | hm
      · simp
      · exact ih l hm
    · rw [if_neg hc] at hl
      cases hsp : splitLines t with
      | nil =>
        rw [hsp] at hl
        rcases List.mem_cons.mp hl with rfl | hm
        · simp only [List.mem_singleton]
          exact fun hq => hc hq.symm
        · simp at hm
      | cons l0 ls =>
        rw [hsp] at hl
        rcases List.mem_cons.mp hl with rfl | hm
        · have h0 : l0 ∈ splitLines t := by
            rw [hsp]
            exact List.mem_cons_self _ _
          have hnot := ih l0 h0
          intro hmem
          rcases List.mem_cons.mp hmem with hq | hq
          · exact hc hq.symm
          · exact hnot hq
        · exact ih l (by rw [hsp]; exact List.mem_cons_of_mem _ hm)

/-- C10. Every extracted url is a contiguous substring of a single line of
the input description (so it never spans a newline): `finditer` only ever
reports `take`/`drop` slices of the line it scans, and the extractor passes
`match.group(0)` through unchanged. -/
theorem c10_url_within_line (description : List Char) (e : RawLink)
    (he : e ∈ extractLinksWithText description) :
    ∃ line, line ∈ splitLines description ∧ infixIn e.url line ∧ '\n' ∉ e.url := by
  rw [extractLinksWithText] at he
  by_cases hd : description.isEmpty
  · rw [if_pos hd] at he
    simp at he
  · rw [if_neg hd] at he
    obtain ⟨p, line, hline, hurl, -⟩ := extractGo_mem _ _ _ he
    obtain ⟨i, L, hm, hv⟩ := findAll_shape line e.url hurl
    have hinf : infixIn e.url line := by
      refine ⟨line.take i, (line.drop i).drop L, ?_⟩
      rw [hv, List.append_assoc, List.take_append_drop, List.take_append_drop]
    refine ⟨line, hline, hinf, ?_⟩
    intro hnl
    obtain ⟨x, y, hxy⟩ := hinf
    have hmemline : '\n' ∈ line := by
      rw [hxy]
      simp only [List.mem_append]
      exact Or.inl (Or.inr hnl)
    exact splitLines_no_newline description line hline hmemline

/-- C10 witness: a two-line description with the URL on the second line. -/
theorem c10_witness :
    ∃ line, line ∈ splitLines "A\nhttp://x.co".data ∧
      infixIn "http://x.co".data line ∧ '\n' ∉ "http://x.co".data :=
  c10_url_within_line "A\nhttp://x.co".data ⟨"A".data, "http://x.co".data⟩ (by decide)

/-- C9 (counterexample). On the input `"http://a.((x"` the extractor
emits the url `"http://a.((x"`, whose TLD component `((x` contains
parentheses: the url is not matched by the claimed pattern whose TLD
admits only 1-6 ALPHANUMERIC characters. -/
theorem c9_counterexample :
    extractLinksWithText "http://a.((x".data =
      [⟨"Link".data, "http://a.((x".data⟩] ∧
    ¬ claimedUrlShape "http://a.((x".data := by
  constructor
  · decide
  · decide

/-- C9 (amended). Every url in the extractor's output is a full match of
the source regex: an `http://` or `https://` scheme, a non-empty host of
host-class characters, a dot, a TLD of 1-6 characters drawn from
alphanumerics AND PARENTHESES (`[a-zA-Z0-9()]`), and a trailing run of
allowed URL characters; hence no output link has an empty url. -/
theorem c9_url_shape (description : List Char) (e : RawLink)
    (he : e ∈ extractLinksWithText description) :
    e.url ≠ [] ∧
    ∃ pre host tld rest, e.url = pre ++ (host ++ '.' :: (tld ++ rest)) ∧
      (pre = "http://".data ∨ pre = "https://".data) ∧
      host ≠ [] ∧ host.all hostChar = true ∧
      tld ≠ [] ∧ tld.length ≤ 6 ∧ tld.all tldChar = true ∧
      rest.all tailChar = true := by
  rw [extractLinksWithText] at he
  by_cases hd : description.isEmpty
  · rw [if_pos hd] at he
    simp at he
  · rw [if_neg hd] at he
    obtain ⟨p, line, hline, hurl, -⟩ := extractGo_mem _ _ _ he
    obtain ⟨i, L, hm, hv⟩ := findAll_shape line e.url hurl
    obtain ⟨pre, host, tld, rest, heq, hpre, props⟩ := matchAt_decomp _ L hm
    rw [← hv] at heq
    constructor
    · rw [heq]
      rcases hpre with rfl | rfl <;> simp
    · exact ⟨pre, host, tld, rest, heq, hpre, props⟩

/-- C9 witness: a concrete extraction with a Strategy-A label. -/
theorem c9_witness :
    ("http://x.co".data ≠ ([] : List Char)) ∧
    ∃ pre host tld rest, "http://x.co".data = pre ++ (host ++ '.' :: (tld ++ rest)) ∧
      (pre = "http://".data ∨ pre = "https://".data) ∧
      host ≠ [] ∧ host.all hostChar = true ∧
      tld ≠ [] ∧ tld.length ≤ 6 ∧ tld.all tldChar = true ∧
      rest.all tailChar = true :=
  c9_url_shape "See http://x.co".data ⟨"See".data, "http://x.co".data⟩ (by decide)

/-! ## Supporting lemmas: label strategy -/

theorem labelFor_eq_specLabel (prevOpt : Option (List Char)) (line url : List Char) :
    labelFor prevOpt line url = specLabel prevOpt line url := by
  rw [labelFor.eq_def, specLabel]
  by_cases hA : strategyAText line url ≠ [] ∧ hasAlnum (strategyAText line url) = true
  · rw [if_pos hA]
    have hb : (!(strategyAText line url).isEmpty && hasAlnum (strategyAText line url)) = true := by
      rcases hA with ⟨h1, h2⟩
      simp [h2, h1]
    rw [if_pos hb]
  · have hb : ¬ ((!(strategyAText line url).isEmpty &&
        hasAlnum (strategyAText line url)) = true) := by
      intro hcon
      rw [Bool.and_eq_true, Bool.not_eq_true', List.isEmpty_eq_false] at hcon
      exact hA ⟨by simpa using hcon.1, hcon.2⟩
    rw [if_neg hb, if_neg hA]
    cases prevOpt with
    | none =>
      rw [if_neg (by simp)]
    | some pl =>
      simp only [Option.getD_some, Option.isSome_some]
      by_cases hB : pyStrip pl ≠ [] ∧ findAll (pyStrip pl) = []
      · have hbB : ((findAll (pyStrip pl)).isEmpty && !(pyStrip pl).isEmpty) = true := by
          rcases hB with ⟨h1, h2⟩
          simp [h1, h2]
        rw [if_pos hbB, if_pos ⟨trivial, hB.1, hB.2⟩]
      · have hbB : ¬ (((findAll (pyStrip pl)).isEmpty && !(pyStrip pl).isEmpty) = true) := by
          intro hcon
          rw [Bool.and_eq_true, Bool.not_eq_true', List.isEmpty_eq_false,
            List.isEmpty_iff] at hcon
          exact hB ⟨by simpa using hcon.2, hcon.1⟩
        rw [if_neg hbB, if_neg (by
          intro hcon
          exact hB ⟨hcon.2.1, hcon.2.2⟩)]

theorem labelFor_ne_nil (prevOpt : Option (List Char)) (line url : List Char) :
    labelFor prevOpt line url ≠ [] := by
  rw [labelFor.eq_def]
  by_cases hA : (!(strategyAText line url).isEmpty && hasAlnum (strategyAText line url)) = true
  · rw [if_pos hA]
    intro hcon
    rw [hcon] at hA
    simp at hA
  · rw [if_neg hA]
    cases prevOpt with
    | none => decide
    | some pl =>
      show (if ((findAll (pyStrip pl)).isEmpty && !(pyStrip pl).isEmpty) = true
          then pyStrip pl else linkWord) ≠ []
      by_cases hB : ((findAll (pyStrip pl)).isEmpty && !(pyStrip pl).isEmpty) = true
      · rw [if_pos hB]
        intro hcon
        rw [hcon] at hB
        simp at hB
      · rw [if_neg hB]
        decide

theorem extractGo_eq_specGo :
    ∀ (lines : List (List Char)) (prevOpt : Option (List Char)),
      extractGo prevOpt lines = specGo prevOpt lines := by
  intro lines
  induction lines with
  | nil => intro p; rfl
  | cons line rest ih =>
    intro p
    rw [extractGo, specGo, ih]
    congr 1
    apply List.map_congr_left
    intro url _
    rw [labelFor_eq_specLabel]

/-- C3. The extractor's label rule is exactly the claimed strict priority:
Strategy A (cleaned same-line text) whenever it is non-empty with an
alphanumeric, else Strategy B (trimmed previous line) whenever a previous
line exists, is non-empty and contains no URL match, else the placeholder
`"Link"`; consequently the label is never the empty string. -/
theorem c3_label_priority (description : List Char) :
    extractLinksWithText description = specExtract description ∧
    ∀ e ∈ extractLinksWithText description, e.text ≠ [] := by
  constructor
  · rw [extractLinksWithText, specExtract]
    by_cases hd : description.isEmpty
    · rw [if_pos hd, if_pos hd]
    · rw [if_neg hd, if_neg hd, extractGo_eq_specGo]
  · intro e he
    rw [extractLinksWithText] at he
    by_cases hd : description.isEmpty
    · rw [if_pos hd] at he
      simp at he
    · rw [if_neg hd] at he
      obtain ⟨p, line, -, -, hshape⟩ := extractGo_mem _ _ _ he
      have htext : e.text = labelFor p line e.url := congrArg RawLink.text hshape
      rw [htext]
      exact labelFor_ne_nil p line e.url

/-- C3 witness at a concrete three-line description exercising all three
label strategies. -/
theorem c3_witness :
    (extractLinksWithText "My product: http://a.de\nNice thing\nhttp://b.fg\nhttp://c.hi".data =
      specExtract "My product: http://a.de\nNice thing\nhttp://b.fg\nhttp://c.hi".data) ∧
    (⟨"Nice thing".data, "http://b.fg".data⟩ : RawLink).text ≠ [] :=
  ⟨(c3_label_priority "My product: http://a.de\nNice thing\nhttp://b.fg\nhttp://c.hi".data).1,
    (c3_label_priority "My product: http://a.de\nNice thing\nhttp://b.fg\nhttp://c.hi".data).2
      ⟨"Nice thing".data, "http://b.fg".data⟩ (by decide)⟩

/-! ## Supporting lemmas: `str.replace` survival -/

theorem removeAllGo_skip (u : List Char) :
    ∀ (t : List Char) (k : Nat), removeAllGo u t k = removeAllGo u (t.drop k) 0 := by
  intro t
  induction t with
  | nil => intro k; simp [removeAllGo]
  | cons c t' ih =>
    intro k
    cases k with
    | zero => rfl
    | succ j =>
      rw [removeAllGo, List.drop_succ_cons]
      exact ih j

theorem removeAll_of_isPrefixB (u : List Char) (s : List Char)
    (hu : u ≠ []) (hp : isPrefixB u s = true) :
    removeAll u s = removeAll u (s.drop u.length) := by
  cases s with
  | nil =>
    cases u with
    | nil => exact absurd rfl hu
    | cons a as => simp [isPrefixB] at hp
  | cons c t =>
    rw [removeAll, removeAll]
    rw [removeAllGo]
    rw [if_pos ⟨by simpa using hu, hp⟩]
    rw [removeAllGo_skip]
    cases hzu : u.length with
    | zero =>
      exfalso
      exact hu (List.length_eq_zero.mp hzu)
    | succ m =>
      rw [List.drop_succ_cons]
      simp

theorem removeAll_cons_no_occ (u : List Char) (c : Char) (t : List Char)
    (hu : u ≠ []) (hp : isPrefixB u (c :: t) = false) :
    removeAll u (c :: t) = c :: removeAll u t := by
  rw [removeAll, removeAll, removeAllGo]
  rw [if_neg (by
    intro hcon
    rw [hp] at hcon
    exact absurd hcon.2 (by simp))]

theorem removeAll_append_no_occ (u : List Char) (hu : u ≠ []) :
    ∀ (w t : List Char),
      (∀ p, p < w.length → isPrefixB u ((w ++ t).drop p) = false) →
      removeAll u (w ++ t) = w ++ removeAll u t := by
  intro w
  induction w with
  | nil => intro t _; rfl
  | cons c w' ih =>
    intro t hno
    have h0 : isPrefixB u (c :: (w' ++ t)) = false := by
      have := hno 0 (by simp)
      simpa using this
    rw [List.cons_append, removeAll_cons_no_occ u c (w' ++ t) hu h0]
    rw [ih t (by
      intro p hp
      have := hno (p + 1) (by simpa using Nat.succ_lt_succ hp)
      rwa [List.cons_append, List.drop_succ_cons] at this)]
    rfl

theorem removeAll_survives (u a v b : List Char) (hu : u ≠ [])
    (hocc : ∀ p, isPrefixB u ((a ++ (v ++ b)).drop p) = true →
      p + u.length ≤ a.length ∨ a.length + v.length ≤ p) :
    ∃ x y, removeAll u (a ++ (v ++ b)) = x ++ (v ++ y) := by
  by_cases hpre : isPrefixB u (a ++ (v ++ b)) = true
  · rcases hocc 0 (by simpa using hpre) with hin | hz
    · simp only [Nat.zero_add] at hin
      have hta : (a ++ (v ++ b)).take u.length = a.take u.length :=
        List.take_append_of_le_length hin
      have htu : a.take u.length = u := by
        have h2 := isPrefixB_take u (a ++ (v ++ b)) hpre
        rw [hta] at h2
        exact h2
      have hsplit : a = u ++ a.drop u.length := by
        conv_lhs => rw [← List.take_append_drop u.length a]
        rw [htu]
      have hdrop : (a ++ (v ++ b)).drop u.length = a.drop u.length ++ (v ++ b) :=
        List.drop_append_of_le_length hin
      rw [removeAll_of_isPrefixB u _ hu hpre, hdrop]
      have hlen : (a.drop u.length).length < a.length := by
        have h1 : 1 ≤ u.length := by
          cases u with
          | nil => exact absurd rfl hu
          | cons x xs => simp
        rw [List.length_drop]
        omega
      exact removeAll_survives u (a.drop u.length) v b hu (by
        intro p hp
        have hshift : isPrefixB u ((a ++ (v ++ b)).drop (u.length + p)) = true := by
          rw [← List.drop_drop, hdrop]
          exact hp
        rcases hocc (u.length + p) hshift with h1 | h1
        · left
          rw [List.length_drop]
          omega
        · right
          rw [List.length_drop]
          omega)
    · have ha : a = [] := by
        have := List.length_eq_zero.mp (by omega : a.length = 0)
        exact this
      have hv : v = [] := by
        have : v.length = 0 := by omega
        exact List.length_eq_zero.mp this
      exact ⟨[], removeAll u (a ++ (v ++ b)), by rw [hv]; simp⟩
  · cases a with
    | nil =>
      have hnone : ∀ p, p < v.length → isPrefixB u ((v ++ b).drop p) = false := by
        intro p hp
        by_contra hcon
        rw [Bool.not_eq_false] at hcon
        rcases hocc p (by simpa using hcon) with h1 | h1
        · have h2 : 1 ≤ u.length := by
            cases u with
            | nil => exact absurd rfl hu
            | cons x xs => simp
          have h3 : p + u.length ≤ 0 := by simpa using h1
          omega
        · have h3 : v.length ≤ p := by simpa using h1
          omega
      have := removeAll_append_no_occ u hu v b hnone
      exact ⟨[], removeAll u b, by simpa using this⟩
    | cons c a' =>
      have hp' : isPrefixB u (c :: (a' ++ (v ++ b))) = false := by
        rw [← Bool.not_eq_true]
        simpa using hpre
      rw [List.cons_append, removeAll_cons_no_occ u c _ hu hp']
      obtain ⟨x, y, hxy⟩ := removeAll_survives u a' v b hu (by
        intro p hp
        have := hocc (p + 1) (by rwa [List.cons_append, List.drop_succ_cons])
        rcases this with h1 | h1
        · left
          simp only [List.length_cons] at h1
          omega
        · right
          simp only [List.length_cons] at h1
          omega)
      exact ⟨c :: x, y, by rw [hxy]; rfl⟩
termination_by a.length
decreasing_by
  · simp_wf
    rw [List.length_drop] at hlen
    omega
  · simp_wf
    rename_i heq
    subst heq
    simp

theorem dropWhile_eq_drop_runLen (p : Char → Bool) :
    ∀ s : List Char, s.dropWhile p = s.drop (runLen p s) := by
  intro s
  induction s with
  | nil => rfl
  | cons c t ih =>
    rw [List.dropWhile_cons, runLen]
    by_cases h : p c = true
    · rw [if_pos h, if_pos h, ih, List.drop_succ_cons]
    · rw [if_neg h, if_neg h]
      rfl

theorem runLen_append_le (p : Char → Bool) (v : List Char) (hv : v ≠ [])
    (hhead : p (v.headD ' ') = false) :
    ∀ (x y : List Char), runLen p (x ++ (v ++ y)) ≤ x.length := by
  intro x
  induction x with
  | nil =>
    intro y
    cases v with
    | nil => exact absurd rfl hv
    | cons a as =>
      rw [List.headD_cons] at hhead
      simp only [List.nil_append, List.cons_append, runLen]
      rw [if_neg (by simp [hhead])]
      simp
  | cons c x' ih =>
    intro y
    rw [List.cons_append, runLen]
    by_cases h : p c = true
    · rw [if_pos h]
      have := ih y
      simp only [List.length_cons]
      omega
    · rw [if_neg h]
      simp

theorem infixIn_dropWhile (p : Char → Bool) (v s : List Char) (hv : v ≠ [])
    (hhead : p (v.headD ' ') = false) (hinf : infixIn v s) :
    infixIn v (s.dropWhile p) := by
  obtain ⟨x, y, rfl⟩ := hinf
  rw [dropWhile_eq_drop_runLen, List.append_assoc]
  have hle : runLen p (x ++ (v ++ y)) ≤ x.length := runLen_append_le p v hv hhead x y
  rw [List.drop_append_of_le_length hle]
  exact ⟨x.drop (runLen p (x ++ (v ++ y))), y, by rw [List.append_assoc]⟩

theorem infixIn_reverse (v s : List Char) (h : infixIn v s) :
    infixIn v.reverse s.reverse := by
  obtain ⟨x, y, rfl⟩ := h
  refine ⟨y.reverse, x.reverse, ?_⟩
  simp [List.reverse_append, List.append_assoc]

theorem infixIn_dropWhileEnd (p : Char → Bool) (v s : List Char) (hv : v ≠ [])
    (hlast : p (v.getLastD ' ') = false) (hinf : infixIn v s) :
    infixIn v (dropWhileEndP p s) := by
  have h1 : infixIn v.reverse s.reverse := infixIn_reverse v s hinf
  have hvr : v.reverse ≠ [] := by simpa using hv
  have hh : p (v.reverse.headD ' ') = false := by
    rw [List.headD_eq_head?_getD, List.head?_reverse, ← List.getLastD_eq_getLast?]
    exact hlast
  have h2 := infixIn_dropWhile p v.reverse s.reverse hvr hh h1
  rw [dropWhileEndP]
  have h3 := infixIn_reverse _ _ h2
  simpa using h3

theorem isSpaceC_false_of_sepChar_false (c : Char) (h : sepChar c = false) :
    isSpaceC c = false := by
  by_contra hcon
  rw [Bool.not_eq_false] at hcon
  rw [sepChar, hcon] at h
  simp at h

/-- C5 (counterexample). On the line `"http://a.de http://a.de"` the
extractor finds two matches with the same text; processing the first one,
`line.replace(url, '')` removes BOTH occurrences (the string of the other
URL equals the URL being processed), so the other URL's text does NOT
survive into the cleaned Strategy-A text, which is empty. -/
theorem c5_counterexample :
    findAll "http://a.de http://a.de".data =
      ["http://a.de".data, "http://a.de".data] ∧
    strategyAText "http://a.de http://a.de".data "http://a.de".data = [] ∧
    ¬ infixIn "http://a.de".data
        (strategyAText "http://a.de http://a.de".data "http://a.de".data) := by
  refine ⟨by decide, by decide, ?_⟩
  intro hcon
  obtain ⟨x, y, hxy⟩ := hcon
  have h1 : strategyAText "http://a.de http://a.de".data "http://a.de".data = [] := by
    decide
  rw [h1] at hxy
  have h2 := congrArg List.length hxy
  simp [List.length_append] at h2
  omega

/-- C5 (amended). Processing a match `u` of a line, the Strategy-A text is
derived from the line by removing only occurrences of the string `u` (the
URL currently being processed), not the line's other URLs; in particular a
different URL match `v` of the same line survives into the cleaned
Strategy-A text whenever no occurrence of `u` in the line overlaps the
region occupied by `v` and `v` does not end in a separator character
(a stripped trailing separator, or a `u`-occurrence inside or across `v` —
e.g. a duplicate of `u` — can clip `v`). -/
theorem c5_other_url_survives (line u v a b : List Char)
    (hu : u ∈ findAll line) (hv : v ∈ findAll line)
    (hline : line = a ++ (v ++ b))
    (hocc : ∀ p, p < line.length → isPrefixB u (line.drop p) = true →
      p + u.length ≤ a.length ∨ a.length + v.length ≤ p)
    (hlast : sepChar (v.getLastD ' ') = false) :
    infixIn v (strategyAText line u) := by
  obtain ⟨i, L, hm, hvv⟩ := findAll_shape line v hv
  obtain ⟨pre, host, tld, rest, heq, hpre, -⟩ := matchAt_decomp _ L hm
  rw [← hvv] at heq
  have hvne : v ≠ [] := by
    rw [heq]
    rcases hpre with rfl | rfl <;> simp
  have hvhead : v.headD ' ' = 'h' := by
    rw [heq]
    rcases hpre with rfl | rfl <;> rfl
  obtain ⟨i', L', hm', hvv'⟩ := findAll_shape line u hu
  obtain ⟨pre', host', tld', rest', heq', hpre', -⟩ := matchAt_decomp _ L' hm'
  rw [← hvv'] at heq'
  have hune : u ≠ [] := by
    rw [heq']
    rcases hpre' with rfl | rfl <;> simp
  have hocc' : ∀ p, isPrefixB u ((a ++ (v ++ b)).drop p) = true →
      p + u.length ≤ a.length ∨ a.length + v.length ≤ p := by
    intro p hp
    by_cases hlt : p < line.length
    · exact hocc p hlt (by rwa [← hline] at hp)
    · exfalso
      push_neg at hlt
      rw [← hline, List.drop_eq_nil_of_le hlt] at hp
      cases u with
      | nil => exact hune rfl
      | cons cc cs => simp [isPrefixB] at hp
  have hsurv0 : ∃ x y, removeAll u (a ++ (v ++ b)) = x ++ (v ++ y) :=
    removeAll_survives u a v b hune hocc'
  have hsurv : infixIn v (removeAll u line) := by
    rw [hline]
    obtain ⟨x, y, hxy⟩ := hsurv0
    exact ⟨x, y, by rw [hxy, List.append_assoc]⟩
  have hsep_head : sepChar (v.headD ' ') = false := by
    rw [hvhead]
    decide
  have hws_head : isSpaceC (v.headD ' ') = false :=
    isSpaceC_false_of_sepChar_false _ hsep_head
  have hws_last : isSpaceC (v.getLastD ' ') = false :=
    isSpaceC_false_of_sepChar_false _ hlast
  rw [strategyAText, pyStrip, pyStrip, stripSep]
  exact infixIn_dropWhileEnd isSpaceC v _ hvne hws_last
    (infixIn_dropWhile isSpaceC v _ hvne hws_head
      (infixIn_dropWhileEnd sepChar v _ hvne hlast
        (infixIn_dropWhile sepChar v _ hvne hsep_head
          (infixIn_dropWhileEnd isSpaceC v _ hvne hws_last
            (infixIn_dropWhile isSpaceC v _ hvne hws_head hsurv)))))

/-- C5 witness: two distinct URLs on one line; the second survives into
the first one's cleaned Strategy-A text. -/
theorem c5_witness :
    ("http://a.de".data ∈ findAll "http://a.de http://b.fg".data) ∧
    ("http://b.fg".data ∈ findAll "http://a.de http://b.fg".data) ∧
    infixIn "http://b.fg".data
      (strategyAText "http://a.de http://b.fg".data "http://a.de".data) :=
  ⟨by decide, by decide,
    c5_other_url_survives "http://a.de http://b.fg".data "http://a.de".data
      "http://b.fg".data "http://a.de ".data [] (by decide) (by decide) (by decide)
      (by decide) (by decide)⟩
